import Mathlib

/-!
# Equity Valuator — Field Resolution & Formula Evaluation Engine: verification

Shallow embedding of the transformation core of the `equity_valuator`
repository (mapping resolver, restricted expression evaluator, dependency
scheduler / valuation orchestrator) together with the administrative UI
operations (mapping save, transform-expression editor, backup format) and
the canonical-field bootstrap, and proofs of the specified properties.

The backend engine itself (`backend/services/transform_engine.py`,
`backend/services/formula_evaluator.py`, `backend/routes/transform.py`) is
not part of the source snapshot; those components are modelled from the
specification, as marked on each definition.  The frontend operations and
the SQL bootstrap are translated directly from the source files.

Numeric values are modelled as exact rationals (`ℚ`); the transcendental
operations (`sqrt`, `log`, `sin`, `cos`, `tan`, `power`), whose numeric
results no specified property depends on, are supplied by an explicit
`MathOracle` parameter.  The IEEE-754 special values never arise in this
domain; the specification's requirement that they never be produced is
captured by the evaluator returning an error (and hence no value at all)
in exactly the situations that would produce them.
-/

namespace EquityValuator

/-! ## Expression evaluator (§4.2 of the spec)

Modelled from the spec: the restricted JSON-like expression grammar — a
tree of `{field: name}`, `{constant: number}` and `{op: name, args: [...]}`
nodes — and its evaluation over a field-value context.  The operator set is
the closed table of §4.2. -/

/-- The closed operator enumeration of §4.2. -/
inductive Op where
  | add | multiply | maxOp | minOp | sumOp
  | subtract | divide | power
  | absOp | roundOp | sqrtOp | logOp | sinOp | cosOp | tanOp
deriving DecidableEq, Repr

/-- Expression tree: `{field: name}` | `{constant: q}` | `{op, args}`. -/
inductive Expr where
  | field (name : String)
  | constant (q : ℚ)
  | op (o : Op) (args : List Expr)

/-- Evaluation-error subkinds of `EvaluationError` (§7 taxonomy). -/
inductive EvalErr where
  | divideByZero | domainError | invalidExpression | typeMismatch
deriving DecidableEq, Repr

/-- What a single expression evaluation can fail with: an
`EvaluationError` subkind, or `MissingRawValue` for an unavailable field. -/
inductive EvalFail where
  | evalErr (e : EvalErr)
  | missingRaw
deriving DecidableEq, Repr

/-- The transcendental/partial numeric operations, abstracted: the model
works over exact rationals, so `sqrt`, `log`, trigonometric functions and
real exponentiation are parameters.  No specified property depends on the
numbers they return, only on when they are (not) consulted. -/
structure MathOracle where
  sqrt : ℚ → ℚ
  log : ℚ → ℚ
  sin : ℚ → ℚ
  cos : ℚ → ℚ
  tan : ℚ → ℚ
  pow : ℚ → ℚ → ℚ

/-- A placeholder oracle used to instantiate concrete evaluations. -/
def defaultOracle : MathOracle :=
  { sqrt := fun q => q, log := fun q => q, sin := fun q => q,
    cos := fun q => q, tan := fun q => q, pow := fun a b => a * b }

/-- Apply an operator to the already-evaluated argument values, enforcing
the arity table and the domain checks of §4.2: variadic folds need at
least one argument, `divide` rejects a zero denominator with
`DivideByZero`, `sqrt`/`log` reject a non-positive operand with
`DomainError`, and any arity violation is `InvalidExpression`. -/
def applyOp (O : MathOracle) (o : Op) (vs : List ℚ) : Except EvalFail ℚ :=
  match o, vs with
  | .add, v :: rest => .ok (rest.foldl (· + ·) v)
  | .sumOp, v :: rest => .ok (rest.foldl (· + ·) v)
  | .multiply, v :: rest => .ok (rest.foldl (· * ·) v)
  | .maxOp, v :: rest => .ok (rest.foldl max v)
  | .minOp, v :: rest => .ok (rest.foldl min v)
  | .subtract, [a, b] => .ok (a - b)
  | .divide, [a, b] =>
      if b = 0 then .error (.evalErr .divideByZero) else .ok (a / b)
  | .power, [a, b] => .ok (O.pow a b)
  | .absOp, [a] => .ok |a|
  | .roundOp, [a] => .ok ((round a : ℤ) : ℚ)
  | .sqrtOp, [a] =>
      if a ≤ 0 then .error (.evalErr .domainError) else .ok (O.sqrt a)
  | .logOp, [a] =>
      if a ≤ 0 then .error (.evalErr .domainError) else .ok (O.log a)
  | .sinOp, [a] => .ok (O.sin a)
  | .cosOp, [a] => .ok (O.cos a)
  | .tanOp, [a] => .ok (O.tan a)
  | _, _ => .error (.evalErr .invalidExpression)

/-- A field-value context: the values available to `{field: name}` nodes. -/
def Ctx : Type := String → Option ℚ

mutual
/-- Pure recursive evaluation of an expression over a context (§4.2): a
`field` node reads the context (failing with `MissingRawValue` when the
field is unavailable), a `constant` node is a literal, an `op` node
evaluates its arguments left to right and applies the operator. -/
def eval (O : MathOracle) (ctx : Ctx) : Expr → Except EvalFail ℚ
  | .field f =>
      match ctx f with
      | some v => .ok v
      | none => .error .missingRaw
  | .constant q => .ok q
  | .op o args =>
      match evalArgs O ctx args with
      | .ok vs => applyOp O o vs
      | .error e => .error e

/-- Evaluate a list of argument expressions left to right, stopping at the
first failure. -/
def evalArgs (O : MathOracle) (ctx : Ctx) : List Expr → Except EvalFail (List ℚ)
  | [] => .ok []
  | e :: es =>
      match eval O ctx e with
      | .ok v =>
          match evalArgs O ctx es with
          | .ok vs => .ok (v :: vs)
          | .error err => .error err
      | .error err => .error err
end

mutual
/-- The canonical-field names referenced by `{field: _}` nodes of an
expression: the dependency set the scheduler (§4.3) derives from it. -/
def fieldsOf : Expr → List String
  | .field f => [f]
  | .constant _ => []
  | .op _ args => fieldsOfList args

/-- `fieldsOf` over an argument list. -/
def fieldsOfList : List Expr → List String
  | [] => []
  | e :: es => fieldsOf e ++ fieldsOfList es
end

/-! ## Mapping resolver (§4.1 of the spec)

Modelled from the spec: `resolve(provider_id, canonical_field, company_id,
as_of_date)` over a fixed mapping table.  Dates are modelled as integer day
numbers; canonical fields, providers and companies by their numeric
identifiers. -/

/-- A `MappedField` row (§3 data model): provider + canonical field +
`raw_field_name`, an optional transform expression, and an optional
company/date scope (`none` company = provider-wide, `none` date bound =
open-ended). -/
structure MappedField where
  provider : Nat
  canonical : Nat
  raw_field_name : String
  transform_expression : Option Expr
  company : Option Nat
  start_date : Option Int
  end_date : Option Int

/-- Step 3 of §4.1: the row's date range contains `asOf`; a missing
`start_date` is `-∞`, a missing `end_date` is `+∞`. -/
def containsDate (m : MappedField) (asOf : Int) : Prop :=
  (∀ s, m.start_date = some s → s ≤ asOf) ∧ (∀ e, m.end_date = some e → asOf ≤ e)

instance (m : MappedField) (asOf : Int) : Decidable (containsDate m asOf) := by
  unfold containsDate; infer_instance

/-- Steps 1–3 of §4.1: the candidate rows for a query — matching provider
and canonical field, company scope null or equal to the queried company,
and date range containing the as-of date. -/
def candidates (table : List MappedField) (pid cf cid : Nat) (asOf : Int) :
    List MappedField :=
  table.filter fun m =>
    m.provider = pid ∧ m.canonical = cf ∧
    (m.company = none ∨ m.company = some cid) ∧ containsDate m asOf

/-- The width of a row's date interval, `none` meaning infinite (any
open-ended interval is wider than every bounded one). -/
def widthOf (m : MappedField) : Option Int :=
  match m.start_date, m.end_date with
  | some s, some e => some (e - s)
  | _, _ => none

/-- `a` is a strictly narrower width than `b` (`none` = infinite). -/
def widthLt : Option Int → Option Int → Bool
  | some x, some y => x < y
  | some _, none => true
  | none, _ => false

/-- `a` is a strictly later start date than `b` (`none` = `-∞`). -/
def startGt : Option Int → Option Int → Bool
  | some x, some y => y < x
  | some _, none => true
  | none, _ => false

/-- Step 4 of §4.1: `a` strictly outranks `b`.  Company-specific beats
provider-wide; among equal company-specificity a strictly narrower date
interval beats a wider or equal one; among equal widths the later
`start_date` wins. -/
def beats (a b : MappedField) : Bool :=
  (a.company.isSome && !b.company.isSome) ||
  (a.company.isSome == b.company.isSome &&
    (widthLt (widthOf a) (widthOf b) ||
     (widthOf a == widthOf b && startGt a.start_date b.start_date)))

/-- The candidates not strictly outranked by any other candidate: the rows
tied at the top rank after step 4's tie-breaks. -/
def topCandidates (cands : List MappedField) : List MappedField :=
  cands.filter fun m => cands.all fun d => !beats d m

/-- Result of resolution: the selected row, or a defined error. -/
inductive ResolveResult where
  | found (m : MappedField)
  | mappingNotFound
  | ambiguousMapping

/-- Step 5 of §4.1: exactly one top-ranked candidate is returned; zero
candidates after filtering is `MappingNotFound`; two or more tied at the
top is `AmbiguousMapping` — never an arbitrary pick. -/
def resolve (table : List MappedField) (pid cf cid : Nat) (asOf : Int) :
    ResolveResult :=
  match topCandidates (candidates table pid cf cid asOf) with
  | [] => .mappingNotFound
  | [m] => .found m
  | _ :: _ :: _ => .ambiguousMapping

/-! ## Backup / restore wire format (§6 of the spec)

Modelled from the spec: the backend's `/api/transform/backup/{provider}`
export (invoked by `downloadBackup` in the admin UI) and the matching
restore are not in the source snapshot; the record format — an array of
`{raw_field_name, canonical_field_code, scope, transform_expression}`
records for one provider's full MappedField set — is taken from §6. -/

/-- The company/date scope portion of a backup record. -/
structure Scope where
  company : Option Nat
  start_date : Option Int
  end_date : Option Int

/-- One record of the backup array. -/
structure BackupRecord where
  raw_field_name : String
  canonical_field_code : Nat
  scope : Scope
  transform_expression : Option Expr

/-- Export one provider's MappedField set as the backup array. -/
def exportMappings (rows : List MappedField) : List BackupRecord :=
  rows.map fun m =>
    { raw_field_name := m.raw_field_name
      canonical_field_code := m.canonical
      scope := { company := m.company, start_date := m.start_date,
                 end_date := m.end_date }
      transform_expression := m.transform_expression }

/-- Import a backup array back into the mapping table of provider `pid`. -/
def importMappings (pid : Nat) (recs : List BackupRecord) : List MappedField :=
  recs.map fun r =>
    { provider := pid
      canonical := r.canonical_field_code
      raw_field_name := r.raw_field_name
      transform_expression := r.transform_expression
      company := r.scope.company
      start_date := r.scope.start_date
      end_date := r.scope.end_date }

/-! ## Dependency scheduler and valuation orchestrator (§4.3, §4.4)

Modelled from the spec: one valuation run works over a resolved set of
mappings (§4.3: "for any single resolved set of mappings"): each canonical
field either failed resolution (`MappingNotFound` / `AmbiguousMapping`),
maps directly to a raw value, or carries a transform expression.  Fields on
a dependency cycle — and fields depending on one — fail with
`CyclicDependencyError` before any value computation (§9: static cycle
detection); the acyclic remainder is evaluated bottom-up, a failed
dependency marking its dependents with an upstream error (§7). -/

/-- The per-field error taxonomy of §7. -/
inductive FieldErr where
  | mappingNotFound
  | ambiguousMapping
  | cyclicDependency
  | evaluation (e : EvalErr)
  | missingRawValue
  | upstream (dep : String)
deriving DecidableEq, Repr

/-- What resolution (§4.1) produced for one canonical field of the run:
a resolution error, a direct raw-value mapping (the raw entry's numeric
value, or `none` when the raw entry is absent), or a transform
expression. -/
inductive FieldSpec where
  | resErr (notFound : Bool)
  | raw (v : Option ℚ)
  | computed (e : Expr)

/-- A resolved mapping configuration: one entry per canonical field. -/
abbrev Config : Type := List (String × FieldSpec)

/-- The resolved spec of a field; a field with no entry has no mapping. -/
def specOf (cfg : Config) (f : String) : FieldSpec :=
  match cfg.find? (fun p => p.1 = f) with
  | some p => p.2
  | none => .resErr true

/-- The canonical fields referenced by one resolved spec: the fields of
its transform expression, if any. -/
def specDeps : FieldSpec → List String
  | .computed e => fieldsOf e
  | _ => []

/-- The direct dependencies of a field: the canonical fields referenced by
its transform expression (§4.3 step 1). -/
def depsOf (cfg : Config) (f : String) : List String :=
  specDeps (specOf cfg f)

/-- The field names referenced by one resolved spec, as a finite set. -/
def specNamesFin (sp : FieldSpec) : Finset String :=
  (specDeps sp).toFinset

/-- All field names a configuration can ever mention: its keys and every
field referenced by one of its expressions. -/
def universeNames (cfg : Config) : Finset String :=
  cfg.foldr (fun p acc => insert p.1 (acc ∪ specNamesFin p.2)) ∅

/-- Direct dependencies as a finite set. -/
def depsFin (cfg : Config) (f : String) : Finset String :=
  (depsOf cfg f).toFinset

/-- One expansion step of the dependency closure. -/
def stepSet (cfg : Config) (s : Finset String) : Finset String :=
  s ∪ s.biUnion (depsFin cfg)

/-- The set of fields reachable from `f` in one or more dependency steps,
computed by expanding the direct dependencies to a fixed point (the
universe is finite, so `card + 1` steps reach it). -/
def reachSet (cfg : Config) (f : String) : Finset String :=
  (stepSet cfg)^[(universeNames cfg).card + 1] (depsFin cfg f)

/-- `g` transitively depends on `h`: there is a non-empty dependency path
from `g` to `h` (§4.3 step 1, followed transitively). -/
inductive Reaches (cfg : Config) : String → String → Prop where
  | single : ∀ {a b}, b ∈ depsOf cfg a → Reaches cfg a b
  | extend : ∀ {a b c}, Reaches cfg a b → c ∈ depsOf cfg b → Reaches cfg a c

/-- `f` is on a dependency cycle, or transitively depends on a field that
is (§4.3 step 2: such fields fail with `CyclicDependencyError`). -/
def Tainted (cfg : Config) (f : String) : Prop :=
  f ∈ reachSet cfg f ∨ ∃ g ∈ reachSet cfg f, g ∈ reachSet cfg g

instance (cfg : Config) (f : String) : Decidable (Tainted cfg f) := by
  unfold Tainted; infer_instance

/-- Inject an evaluation failure into the per-field taxonomy. -/
def liftFail : EvalFail → FieldErr
  | .evalErr e => .evaluation e
  | .missingRaw => .missingRawValue

/-- Is an outcome a failure? -/
def isErrOutcome (r : Except FieldErr ℚ) : Bool :=
  match r with
  | .error _ => true
  | .ok _ => false

/-- Apply one field's resolved spec, given the outcomes of the other
fields (§4.4): a resolution error is reported as such, a direct mapping
reads the raw value (`MissingRawValue` when absent), and a computed field
first checks its dependencies — a failed dependency marks this field with
an upstream error — and then evaluates its expression over their
values. -/
def outcomeStep (O : MathOracle) (recur : String → Except FieldErr ℚ) :
    FieldSpec → Except FieldErr ℚ
  | .resErr b =>
      .error (if b then .mappingNotFound else .ambiguousMapping)
  | .raw none => .error .missingRawValue
  | .raw (some v) => .ok v
  | .computed e =>
      match (fieldsOf e).find? (fun d => isErrOutcome (recur d)) with
      | some d => .error (.upstream d)
      | none =>
          match eval O (fun s => (recur s).toOption) e with
          | .ok v => .ok v
          | .error err => .error (liftFail err)

/-- Fuel-indexed outcome of one canonical field (the fuel is only a
structural termination device; `fuelOf` below always supplies enough for
every non-cyclic dependency cone, so the fuel-exhaustion branch is
unreachable there).  A tainted field fails with `CyclicDependencyError`
before any evaluation; every other field's resolved spec is applied by
`outcomeStep`. -/
def outcomeF (cfg : Config) (O : MathOracle) : Nat → String → Except FieldErr ℚ
  | 0, _ => .error .cyclicDependency
  | n + 1, f =>
    if Tainted cfg f then .error .cyclicDependency
    else outcomeStep O (outcomeF cfg O n) (specOf cfg f)

/-- Enough fuel for every dependency cone of the configuration. -/
def fuelOf (cfg : Config) : Nat := (universeNames cfg).card + 1

/-- The outcome of one canonical field in one run. -/
def outcomeOf (cfg : Config) (O : MathOracle) (f : String) : Except FieldErr ℚ :=
  outcomeF cfg O (fuelOf cfg) f

/-- The output of one orchestrator run (§3): a field → (value | null)
mapping plus a per-field error list. -/
structure ValuationResult where
  values : List (String × Option ℚ)
  errors : List (String × FieldErr)

/-- `valuate(company_id, as_of_date, target_fields)` (§4.4), over the
resolved configuration of that company and as-of date: every requested
field gets a value entry (`none` on failure) and failed fields
additionally get their specific error recorded; no failure escapes. -/
def valuate (cfg : Config) (O : MathOracle) (targets : List String) :
    ValuationResult :=
  { values := targets.map fun f => (f, (outcomeOf cfg O f).toOption)
    errors := targets.filterMap fun f =>
      match outcomeOf cfg O f with
      | .error e => some (f, e)
      | .ok _ => none }

/-- Remove two fields' entries from a configuration (used to state that
fields not depending on a cycle behave as if the cyclic mappings were
absent). -/
def eraseTwo (cfg : Config) (A B : String) : Config :=
  cfg.filter fun p => ¬(p.1 = A ∨ p.1 = B)

/-! ## Canonical-field bootstrap (`init.sql`, src/unnamed/part_005)

Translated from the source SQL: `INSERT INTO canonical_fields (code, name,
display_name, type, category, is_computed) VALUES ... ON CONFLICT (code)
DO NOTHING` — a row is appended only when no row with its code exists;
nothing is ever updated or deleted. -/

/-- A `canonical_fields` row. -/
structure CanonicalRow where
  code : Nat
  name : String
  display_name : String
  type : String
  category : String
  is_computed : Bool
deriving DecidableEq, Repr

/-- `INSERT ... ON CONFLICT (code) DO NOTHING` for a single row. -/
def insertOnConflictCode (t : List CanonicalRow) (r : CanonicalRow) :
    List CanonicalRow :=
  if t.any fun x => x.code = r.code then t else t ++ [r]

/-- The seed rows of src/unnamed/part_005 lines 7–27. -/
def canonicalSeed : List CanonicalRow :=
  [⟨1001, "total_revenue", "Total Revenue", "currency", "fundamental", false⟩,
   ⟨1002, "net_income", "Net Income", "currency", "fundamental", false⟩,
   ⟨1003, "total_assets", "Total Assets", "currency", "fundamental", false⟩,
   ⟨1004, "total_liabilities", "Total Liabilities", "currency", "fundamental", false⟩,
   ⟨1005, "total_equity", "Total Equity", "currency", "fundamental", false⟩,
   ⟨1006, "cash", "Cash and Cash Equivalents", "currency", "fundamental", false⟩,
   ⟨1007, "long_term_debt", "Long Term Debt", "currency", "fundamental", false⟩,
   ⟨1008, "current_assets", "Current Assets", "currency", "fundamental", false⟩,
   ⟨1009, "current_liabilities", "Current Liabilities", "currency", "fundamental", false⟩,
   ⟨1010, "operating_cash_flow", "Operating Cash Flow", "currency", "fundamental", false⟩,
   ⟨2001, "market_cap", "Market Capitalization", "currency", "market", false⟩,
   ⟨2002, "enterprise_value", "Enterprise Value", "currency", "market", false⟩,
   ⟨2003, "share_price", "Share Price", "currency", "market", false⟩,
   ⟨3001, "pe_ratio", "Price to Earnings Ratio", "ratio", "ratio", true⟩,
   ⟨3002, "ev_ebitda", "EV/EBITDA", "ratio", "ratio", true⟩,
   ⟨3003, "debt_to_equity", "Debt to Equity Ratio", "ratio", "ratio", true⟩,
   ⟨3004, "current_ratio", "Current Ratio", "ratio", "ratio", true⟩,
   ⟨3005, "return_on_equity", "Return on Equity", "percentage", "ratio", true⟩,
   ⟨3006, "return_on_assets", "Return on Assets", "percentage", "ratio", true⟩]

/-- One run of the canonical-field bootstrap over an existing table. -/
def runBootstrap (t : List CanonicalRow) : List CanonicalRow :=
  canonicalSeed.foldl insertOnConflictCode t

/-! ## Administrative UI operations (frontend source)

Translated from src/unnamed/part_002 (`Transformations` page) and
src/frontend/src/pages/Providers.tsx.  JavaScript values sent in request
bodies are modelled by a small JSON type plus an explicit `undefined`
marker (`JSON.stringify` drops object keys whose value is `undefined`). -/

/-- A JSON value (the wire format of transform expressions and bodies). -/
inductive Json where
  | null
  | bool (b : Bool)
  | num (q : ℚ)
  | str (s : String)
  | arr (items : List Json)
  | obj (entries : List (String × Json))

/-- A JavaScript value position: `undefined`, or a JSON value. -/
inductive JsVal where
  | undef
  | val (j : Json)

/-- Whether a JavaScript value is defined (not `undefined`). -/
def JsVal.isDefined : JsVal → Bool
  | .undef => false
  | .val _ => true

/-- The `FieldMapping` state of the mapping UI (src/unnamed/part_002
lines 19–27): optional id, raw field name, optional transform expression
(possibly `undefined`), and optional company/date scope. -/
structure FieldMapping where
  id : Option String
  raw_field_name : String
  transform_expression : JsVal
  company_id : Option String
  start_date : Option String
  end_date : Option String

/-- The request body built by `saveMapping` (src/unnamed/part_002
lines 196–201, identically src/frontend/src/pages/Providers.tsx
lines 259–264): exactly the properties `provider_id`, `canonical_id`,
`raw_field_name` and `transform_expression` taken from the current state —
`company_id`, `start_date` and `end_date` are never included. -/
def saveMappingData (selectedProvider : Nat) (selectedFieldId : Nat)
    (m : FieldMapping) : List (String × JsVal) :=
  [("provider_id", .val (.num selectedProvider)),
   ("canonical_id", .val (.num selectedFieldId)),
   ("raw_field_name", .val (.str m.raw_field_name)),
   ("transform_expression", m.transform_expression)]

/-- The keys present in `JSON.stringify` of an object: keys whose value is
`undefined` are dropped. -/
def serializedKeys (body : List (String × JsVal)) : List String :=
  (body.filter fun p =>
    match p.2 with
    | .undef => false
    | .val _ => true).map Prod.fst

/-- The HTTP method chosen by `saveMapping`: `PUT` when the state carries
an id (update), `POST` otherwise (create). -/
def saveMappingMethod (m : FieldMapping) : String :=
  match m.id with
  | some _ => "PUT"
  | none => "POST"

/-- The transform-expression textarea `onChange` handler
(src/unnamed/part_002 lines 643–657): empty text sets the expression to
JSON `null`; non-empty text is `JSON.parse`d — on success the parsed value
replaces the expression (no validation against the expression grammar), on
a parse exception the state is left unchanged.  `parse` abstracts
`JSON.parse` (`none` = exception thrown). -/
def onChangeTransform (parse : String → Option Json) (text : String)
    (prev : Option FieldMapping) : Option FieldMapping :=
  if text = "" then
    some { id := prev.bind (·.id)
           raw_field_name := (prev.map (·.raw_field_name)).getD ""
           transform_expression := .val .null
           company_id := prev.bind (·.company_id)
           start_date := prev.bind (·.start_date)
           end_date := prev.bind (·.end_date) }
  else
    match parse text with
    | some v =>
        some { id := prev.bind (·.id)
               raw_field_name := (prev.map (·.raw_field_name)).getD ""
               transform_expression := .val v
               company_id := prev.bind (·.company_id)
               start_date := prev.bind (·.start_date)
               end_date := prev.bind (·.end_date) }
    | none => prev

/-! ## Provider type declarations (frontend source)

The attribute lists of the `Provider` type as declared at the three places
it appears in the source. -/

/-- Attributes of `Provider` in src/frontend/src/services/providers.ts
lines 5–8. -/
def providersServiceProviderAttrs : List String := ["id", "name"]

/-- Attributes of the local `Provider` interface of the mapping UI,
src/unnamed/part_002 lines 13–17 and src/frontend/src/pages/Providers.tsx
lines 126–130. -/
def transformationsProviderAttrs : List String := ["id", "name", "description"]

/-! ## Theorems -/

/-! ### Canonical-field bootstrap (claim C8) -/

theorem insertOnConflictCode_skip (t : List CanonicalRow) (r : CanonicalRow)
    (h : (t.any fun x => x.code = r.code) = true) :
    insertOnConflictCode t r = t := by
  simp [insertOnConflictCode, h]

theorem foldl_insert_append (rows : List CanonicalRow) :
    ∀ t : List CanonicalRow, ∃ a, rows.foldl insertOnConflictCode t = t ++ a := by
  induction rows with
  | nil => exact fun t => ⟨[], by simp⟩
  | cons r rows ih =>
      intro t
      by_cases h : (t.any fun x => x.code = r.code) = true
      · obtain ⟨a, ha⟩ := ih t
        exact ⟨a, by simpa [List.foldl_cons, insertOnConflictCode, h] using ha⟩
      · obtain ⟨a, ha⟩ := ih (t ++ [r])
        refine ⟨[r] ++ a, ?_⟩
        simp only [List.foldl_cons, insertOnConflictCode, h, if_false]
        simpa [List.append_assoc] using ha

theorem any_code_after_insert (t : List CanonicalRow) (r : CanonicalRow) :
    ((insertOnConflictCode t r).any fun x => x.code = r.code) = true := by
  by_cases h : (t.any fun x => x.code = r.code) = true
  · simp [insertOnConflictCode, h]
  · simp [insertOnConflictCode, h, List.any_append]

theorem any_preserved_by_foldl (rows : List CanonicalRow) (t : List CanonicalRow)
    (p : CanonicalRow → Bool) (h : t.any p = true) :
    ((rows.foldl insertOnConflictCode t).any p) = true := by
  obtain ⟨a, ha⟩ := foldl_insert_append rows t
  simp [ha, List.any_append, h]

theorem any_code_after_run (rows : List CanonicalRow) :
    ∀ (r : CanonicalRow) (t : List CanonicalRow), r ∈ rows →
      ((rows.foldl insertOnConflictCode t).any fun x => x.code = r.code) = true := by
  induction rows with
  | nil => intro r t hr; cases hr
  | cons q rows ih =>
      intro r t hr
      rcases List.mem_cons.mp hr with h | h
      · subst h
        simpa [List.foldl_cons] using
          any_preserved_by_foldl rows (insertOnConflictCode t r) _
            (any_code_after_insert t r)
      · simpa [List.foldl_cons] using ih r (insertOnConflictCode t q) h

theorem foldl_insert_skip_all (rows : List CanonicalRow) :
    ∀ t, (∀ r ∈ rows, (t.any fun x => x.code = r.code) = true) →
      rows.foldl insertOnConflictCode t = t := by
  induction rows with
  | nil => intro t _; rfl
  | cons q rows ih =>
      intro t h
      have hq := insertOnConflictCode_skip t q (h q (List.mem_cons_self q rows))
      simp only [List.foldl_cons, hq]
      exact ih t fun r hr => h r (List.mem_cons_of_mem q hr)

theorem runBootstrap_idem (t : List CanonicalRow) :
    runBootstrap (runBootstrap t) = runBootstrap t :=
  foldl_insert_skip_all canonicalSeed (runBootstrap t)
    (fun r hr => any_code_after_run canonicalSeed r t hr)

theorem runBootstrap_iterate (n : Nat) (hn : 1 ≤ n) :
    runBootstrap^[n] [] = runBootstrap [] := by
  induction n with
  | zero => cases hn
  | succ m ih =>
      rcases Nat.eq_or_lt_of_le hn with h | h
      · simp [← h]
      · have hm : 1 ≤ m := Nat.lt_succ_iff.mp h
        rw [Function.iterate_succ_apply', ih hm, runBootstrap_idem]

theorem runBootstrap_empty : runBootstrap [] = canonicalSeed := by decide

/-- C8: CanonicalField codes and names stay globally unique under the
bootstrap and are never reused: any number of re-runs of the
canonical-field bootstrap from an empty table yields pairwise-distinct
codes and names; a row whose code already exists is never overwritten or
duplicated (the insert is a no-op for it); the bootstrap only ever appends
rows, leaving every existing row unchanged; and re-running it is a
no-op. -/
theorem canonical_bootstrap_unique_idempotent :
    (∀ n : Nat, ((runBootstrap^[n] []).map (fun r => r.code)).Nodup ∧
      ((runBootstrap^[n] []).map (fun r => r.name)).Nodup) ∧
    (∀ t r, (t.any fun x => x.code = r.code) = true →
      insertOnConflictCode t r = t) ∧
    (∀ t, ∃ a, runBootstrap t = t ++ a) ∧
    (∀ t, runBootstrap (runBootstrap t) = runBootstrap t) := by
  refine ⟨?_, insertOnConflictCode_skip, fun t => foldl_insert_append canonicalSeed t,
    runBootstrap_idem⟩
  intro n
  rcases Nat.eq_zero_or_pos n with h | h
  · subst h; simp
  · rw [runBootstrap_iterate n h, runBootstrap_empty]
    exact ⟨by decide, by decide⟩

/-- Witness for C8: the insert-on-conflict hypothesis discharged at a
concrete input — a fresh row re-using the existing code 1001 is rejected
without modifying the table. -/
theorem canonical_bootstrap_witness :
    insertOnConflictCode canonicalSeed
      ⟨1001, "fresh_name", "Fresh", "currency", "fundamental", false⟩ =
      canonicalSeed :=
  canonical_bootstrap_unique_idempotent.2.1 canonicalSeed
    ⟨1001, "fresh_name", "Fresh", "currency", "fundamental", false⟩ (by decide)

/-! ### Provider type declarations (claim C7) -/

/-- C7 (divergence witness): the service-layer `Provider` type has exactly
the attributes `id` and `name`, but the `Provider` interface declared
locally by the mapping pages (src/unnamed/part_002 lines 13–17,
src/frontend/src/pages/Providers.tsx lines 126–130) additionally declares
a required `description` attribute — contradicting the repository's own
documentation (`DummyProviders/README.md`: "Only has `id` and `name`
fields / No `description` ... fields exist") and the backend model. -/
theorem provider_attrs_divergence :
    providersServiceProviderAttrs = ["id", "name"] ∧
    transformationsProviderAttrs ≠ ["id", "name"] ∧
    "description" ∈ transformationsProviderAttrs := by
  exact ⟨rfl, by decide, by decide⟩

/-! ### Mapping save operation (claim C9) -/

/-- C9 (counterexample): when the state's `transform_expression` is
`undefined` — reachable in the Providers.tsx variant by typing a raw field
name with no previously loaded mapping — `JSON.stringify` drops the key and
the serialized request body contains only three keys, not four. -/
theorem saveMapping_three_key_counterexample :
    serializedKeys (saveMappingData 1 2
      { id := none, raw_field_name := "revenues",
        transform_expression := .undef, company_id := none,
        start_date := none, end_date := none }) ≠
      ["provider_id", "canonical_id", "raw_field_name",
       "transform_expression"] := by
  decide

/-- C9 (amended): `saveMapping` builds its request body from exactly the
four properties `provider_id`, `canonical_id`, `raw_field_name`,
`transform_expression`; the serialized body carries exactly those four
keys when the state's `transform_expression` is defined, and exactly the
first three when it is `undefined`; `company_id`, `start_date` and
`end_date` are never part of the body and never influence it (nor does the
id, which only selects PUT vs POST), so a mapping's company/date scope is
never set or modified by this operation. -/
theorem saveMapping_body_frame (p cf : Nat) (m : FieldMapping) :
    ((saveMappingData p cf m).map Prod.fst =
      ["provider_id", "canonical_id", "raw_field_name",
       "transform_expression"]) ∧
    (m.transform_expression.isDefined = true →
      serializedKeys (saveMappingData p cf m) =
        ["provider_id", "canonical_id", "raw_field_name",
         "transform_expression"]) ∧
    (m.transform_expression.isDefined = false →
      serializedKeys (saveMappingData p cf m) =
        ["provider_id", "canonical_id", "raw_field_name"]) ∧
    ("company_id" ∉ (saveMappingData p cf m).map Prod.fst ∧
     "start_date" ∉ (saveMappingData p cf m).map Prod.fst ∧
     "end_date" ∉ (saveMappingData p cf m).map Prod.fst) ∧
    (∀ i c s e, saveMappingData p cf
        { m with id := i, company_id := c, start_date := s, end_date := e } =
      saveMappingData p cf m) ∧
    (saveMappingMethod { m with id := none } = "POST" ∧
     ∀ x, saveMappingMethod { m with id := some x } = "PUT") := by
  have hk : (saveMappingData p cf m).map Prod.fst =
      ["provider_id", "canonical_id", "raw_field_name",
       "transform_expression"] := rfl
  refine ⟨rfl, ?_, ?_, ⟨?_, ?_, ?_⟩,
    fun i c s e => rfl, rfl, fun x => rfl⟩
  · intro h
    cases hte : m.transform_expression with
    | undef => rw [hte] at h; cases h
    | val j => simp [serializedKeys, saveMappingData, hte]
  · intro h
    cases hte : m.transform_expression with
    | undef => simp [serializedKeys, saveMappingData, hte]
    | val j => rw [hte] at h; cases h
  · rw [hk]; decide
  · rw [hk]; decide
  · rw [hk]; decide

/-- Witness for C9: the amended theorem applied at a concrete state whose
transform expression is defined (`null`), yielding the four-key body. -/
theorem saveMapping_body_frame_witness :
    serializedKeys (saveMappingData 3 4
      { id := some "m1", raw_field_name := "Total_Revenue",
        transform_expression := .val .null, company_id := some "co",
        start_date := some "2020-01-01", end_date := none }) =
      ["provider_id", "canonical_id", "raw_field_name",
       "transform_expression"] :=
  (saveMapping_body_frame 3 4
    { id := some "m1", raw_field_name := "Total_Revenue",
      transform_expression := .val .null, company_id := some "co",
      start_date := some "2020-01-01", end_date := none }).2.1 rfl

/-! ### Transform-expression editor (claim C10) -/

/-- C10: in the transform-expression textarea, empty text sets the
expression to JSON `null`; any successfully parsed JSON value replaces the
expression verbatim — no validation against the field/constant/op grammar
is applied — while the rest of the mapping state is carried over; and a
parse failure leaves the whole state unchanged (the exception is
swallowed). -/
theorem transform_editor_onChange (parse : String → Option Json)
    (text : String) (prev : Option FieldMapping) :
    (text = "" → ∃ st, onChangeTransform parse text prev = some st ∧
      st.transform_expression = .val .null) ∧
    (∀ v, text ≠ "" → parse text = some v →
      ∃ st, onChangeTransform parse text prev = some st ∧
        st.transform_expression = .val v ∧
        st.raw_field_name = (prev.map (fun p => p.raw_field_name)).getD "" ∧
        st.id = prev.bind (fun p => p.id) ∧
        st.company_id = prev.bind (fun p => p.company_id) ∧
        st.start_date = prev.bind (fun p => p.start_date) ∧
        st.end_date = prev.bind (fun p => p.end_date)) ∧
    (text ≠ "" → parse text = none →
      onChangeTransform parse text prev = prev) := by
  refine ⟨?_, ?_, ?_⟩
  · intro h
    subst h
    exact ⟨_, rfl, rfl⟩
  · intro v hne hp
    refine ⟨{ id := prev.bind (fun p => p.id)
              raw_field_name := (prev.map (fun p => p.raw_field_name)).getD ""
              transform_expression := .val v
              company_id := prev.bind (fun p => p.company_id)
              start_date := prev.bind (fun p => p.start_date)
              end_date := prev.bind (fun p => p.end_date) },
      ?_, rfl, rfl, rfl, rfl, rfl, rfl⟩
    simp [onChangeTransform, hne, hp]
  · intro hne hp
    simp [onChangeTransform, hne, hp]

/-- Witness for C10: a concrete change event whose text parses to a plain
JSON string — a value far outside the expression grammar — is stored
verbatim as the new transform expression. -/
theorem transform_editor_onChange_witness :
    (onChangeTransform
        (fun t => if t = "sometext" then some (.str "free text") else none)
        "sometext" none).map (fun st => st.transform_expression) =
      some (.val (.str "free text")) := by
  obtain ⟨st, h1, h2, _⟩ :=
    (transform_editor_onChange
      (fun t => if t = "sometext" then some (.str "free text") else none)
      "sometext" none).2.1 (.str "free text") (by decide) (by simp)
  rw [h1, Option.map_some']
  rw [h2]

/-! ### Expression evaluator: purity and domain errors (claims C5, C3) -/

mutual
theorem eval_congr (O : MathOracle) (ctx₁ ctx₂ : Ctx) :
    ∀ (e : Expr), (∀ f ∈ fieldsOf e, ctx₁ f = ctx₂ f) →
      eval O ctx₁ e = eval O ctx₂ e
  | .field f, h => by
      have hf : ctx₁ f = ctx₂ f := h f (by simp [fieldsOf])
      simp [eval, hf]
  | .constant _, _ => rfl
  | .op o args, h => by
      have ha : evalArgs O ctx₁ args = evalArgs O ctx₂ args :=
        evalArgs_congr O ctx₁ ctx₂ args (by simpa [fieldsOf] using h)
      simp [eval, ha]

theorem evalArgs_congr (O : MathOracle) (ctx₁ ctx₂ : Ctx) :
    ∀ (es : List Expr), (∀ f ∈ fieldsOfList es, ctx₁ f = ctx₂ f) →
      evalArgs O ctx₁ es = evalArgs O ctx₂ es
  | [], _ => rfl
  | e :: es, h => by
      have h1 : eval O ctx₁ e = eval O ctx₂ e :=
        eval_congr O ctx₁ ctx₂ e (fun f hf => h f (by simp [fieldsOfList, hf]))
      have h2 : evalArgs O ctx₁ es = evalArgs O ctx₂ es :=
        evalArgs_congr O ctx₁ ctx₂ es (fun f hf => h f (by simp [fieldsOfList, hf]))
      simp [evalArgs, h1, h2]
end

/-- C5: the expression evaluator is pure and self-contained — evaluation
is a total function of the oracle, the context and the expression (so two
evaluations with the same context always agree), and its result depends on
nothing outside the expression and the supplied field-value context: any
two contexts agreeing on the fields the expression references yield the
same result.  The embedding is a total Lean function, so evaluation has no
external effects by construction. -/
theorem evaluator_purity :
    (∀ (O : MathOracle) (ctx : Ctx) (e : Expr), eval O ctx e = eval O ctx e) ∧
    (∀ (O : MathOracle) (ctx₁ ctx₂ : Ctx) (e : Expr),
      (∀ f ∈ fieldsOf e, ctx₁ f = ctx₂ f) → eval O ctx₁ e = eval O ctx₂ e) :=
  ⟨fun _ _ _ => rfl, fun O ctx₁ ctx₂ e h => eval_congr O ctx₁ ctx₂ e h⟩

/-- Witness for C5: an expression reading field `x` evaluates identically
under two contexts that agree on `x` but differ everywhere else. -/
theorem evaluator_purity_witness :
    eval defaultOracle (fun s => if s = "x" then some 10 else none)
        (.op .divide [.field "x", .constant 2]) =
      eval defaultOracle (fun s => if s = "x" then some 10 else some 99)
        (.op .divide [.field "x", .constant 2]) :=
  evaluator_purity.2 defaultOracle _ _ _ (by decide)

/-- C3: a `divide` node whose denominator evaluates to zero fails with
`EvaluationError(DivideByZero)` — and returns no value at all, so no
infinity or NaN can arise (the value domain of the model contains
neither) — and `sqrt`/`log` of a non-positive operand fail with
`EvaluationError(DomainError)`; in particular `divide(10, 0)` yields
`DivideByZero` and `sqrt(-4)` yields `DomainError`. -/
theorem evaluator_domain_errors :
    (∀ (O : MathOracle) (ctx : Ctx) (a b : Expr) (x : ℚ),
      eval O ctx a = .ok x → eval O ctx b = .ok 0 →
      eval O ctx (.op .divide [a, b]) = .error (.evalErr .divideByZero)) ∧
    (∀ (O : MathOracle) (ctx : Ctx) (a : Expr) (v : ℚ),
      eval O ctx a = .ok v → v ≤ 0 →
      eval O ctx (.op .sqrtOp [a]) = .error (.evalErr .domainError)) ∧
    (∀ (O : MathOracle) (ctx : Ctx) (a : Expr) (v : ℚ),
      eval O ctx a = .ok v → v ≤ 0 →
      eval O ctx (.op .logOp [a]) = .error (.evalErr .domainError)) ∧
    (∀ (O : MathOracle) (ctx : Ctx),
      eval O ctx (.op .divide [.constant 10, .constant 0]) =
        .error (.evalErr .divideByZero)) ∧
    (∀ (O : MathOracle) (ctx : Ctx),
      eval O ctx (.op .sqrtOp [.constant (-4)]) =
        .error (.evalErr .domainError)) ∧
    (∀ (O : MathOracle) (ctx : Ctx) (v : ℚ),
      ¬ eval O ctx (.op .divide [.constant 10, .constant 0]) = .ok v) := by
  have hdiv : ∀ (O : MathOracle) (ctx : Ctx) (a b : Expr) (x : ℚ),
      eval O ctx a = .ok x → eval O ctx b = .ok 0 →
      eval O ctx (.op .divide [a, b]) = .error (.evalErr .divideByZero) := by
    intro O ctx a b x h1 h2
    simp [eval, evalArgs, h1, h2, applyOp]
  have hsqrt : ∀ (O : MathOracle) (ctx : Ctx) (a : Expr) (v : ℚ),
      eval O ctx a = .ok v → v ≤ 0 →
      eval O ctx (.op .sqrtOp [a]) = .error (.evalErr .domainError) := by
    intro O ctx a v h1 hv
    simp [eval, evalArgs, h1, applyOp, hv]
  have hlog : ∀ (O : MathOracle) (ctx : Ctx) (a : Expr) (v : ℚ),
      eval O ctx a = .ok v → v ≤ 0 →
      eval O ctx (.op .logOp [a]) = .error (.evalErr .domainError) := by
    intro O ctx a v h1 hv
    simp [eval, evalArgs, h1, applyOp, hv]
  refine ⟨hdiv, hsqrt, hlog, ?_, ?_, ?_⟩
  · exact fun O ctx => hdiv O ctx (.constant 10) (.constant 0) 10 rfl rfl
  · exact fun O ctx => hsqrt O ctx (.constant (-4)) (-4) rfl (by norm_num)
  · intro O ctx v h
    rw [hdiv O ctx (.constant 10) (.constant 0) 10 rfl rfl] at h
    cases h

/-- Witness for C3: the two concrete failing evaluations of the spec's
test battery. -/
theorem evaluator_domain_errors_witness :
    eval defaultOracle (fun _ => none)
        (.op .divide [.constant 10, .constant 0]) =
      .error (.evalErr .divideByZero) ∧
    eval defaultOracle (fun _ => none)
        (.op .sqrtOp [.constant (-4)]) =
      .error (.evalErr .domainError) :=
  ⟨evaluator_domain_errors.1 defaultOracle (fun _ => none)
      (.constant 10) (.constant 0) 10 rfl rfl,
   evaluator_domain_errors.2.1 defaultOracle (fun _ => none)
      (.constant (-4)) (-4) rfl (by norm_num)⟩

/-! ### Mapping resolver (claims C1, C6) -/

theorem widthLt_irrefl (w : Option Int) : widthLt w w = false := by
  cases w <;> simp [widthLt]

theorem startGt_irrefl (s : Option Int) : startGt s s = false := by
  cases s <;> simp [startGt]

theorem widthLt_trans {u v w : Option Int} (h1 : widthLt u v = true)
    (h2 : widthLt v w = true) : widthLt u w = true := by
  cases u <;> cases v <;> cases w <;> simp_all [widthLt]
  omega

theorem startGt_trans {u v w : Option Int} (h1 : startGt u v = true)
    (h2 : startGt v w = true) : startGt u w = true := by
  cases u <;> cases v <;> cases w <;> simp_all [startGt]
  omega

theorem beats_iff (a b : MappedField) : beats a b = true ↔
    (a.company.isSome = true ∧ b.company.isSome = false) ∨
    (a.company.isSome = b.company.isSome ∧
      (widthLt (widthOf a) (widthOf b) = true ∨
       (widthOf a = widthOf b ∧ startGt a.start_date b.start_date = true))) := by
  simp [beats, Bool.or_eq_true, Bool.and_eq_true, Bool.not_eq_true']

theorem beats_irrefl (m : MappedField) : beats m m = false := by
  rw [Bool.eq_false_iff]
  intro h
  rcases (beats_iff m m).mp h with ⟨h1, h2⟩ | ⟨_, h2 | ⟨_, h3⟩⟩
  · rw [h1] at h2; cases h2
  · rw [widthLt_irrefl] at h2; cases h2
  · rw [startGt_irrefl] at h3; cases h3

theorem beats_trans {a b c : MappedField} (h1 : beats a b = true)
    (h2 : beats b c = true) : beats a c = true := by
  rw [beats_iff] at h1 h2 ⊢
  rcases h1 with ⟨ha, hb⟩ | ⟨hab, h1⟩
  · rcases h2 with ⟨hb', _⟩ | ⟨hbc, _⟩
    · rw [hb] at hb'; cases hb'
    · exact Or.inl ⟨ha, hbc ▸ hb⟩
  · rcases h2 with ⟨hb', hc⟩ | ⟨hbc, h2⟩
    · exact Or.inl ⟨hab ▸ hb', hc⟩
    · refine Or.inr ⟨hab.trans hbc, ?_⟩
      rcases h1 with hw1 | ⟨hw1, hs1⟩
      · rcases h2 with hw2 | ⟨hw2, _⟩
        · exact Or.inl (widthLt_trans hw1 hw2)
        · exact Or.inl (hw2 ▸ hw1)
      · rcases h2 with hw2 | ⟨hw2, hs2⟩
        · exact Or.inl (hw1 ▸ hw2)
        · exact Or.inr ⟨hw1.trans hw2, startGt_trans hs1 hs2⟩

theorem exists_top_candidate :
    ∀ (l : List MappedField), l ≠ [] →
      ∃ m ∈ l, ∀ d ∈ l, beats d m = false := by
  intro l
  induction l with
  | nil => intro h; exact absurd rfl h
  | cons a l ih =>
      intro _
      rcases eq_or_ne l [] with rfl | hl
      · refine ⟨a, List.mem_singleton_self a, ?_⟩
        intro d hd
        rw [List.mem_singleton.mp hd]
        exact beats_irrefl a
      · obtain ⟨m, hm, htop⟩ := ih hl
        by_cases hb : beats a m = true
        · refine ⟨a, List.mem_cons_self a l, ?_⟩
          intro d hd
          rcases List.mem_cons.mp hd with rfl | hd
          · exact beats_irrefl d
          · rw [Bool.eq_false_iff]
            intro hda
            have := beats_trans hda hb
            rw [htop d hd] at this
            cases this
        · refine ⟨m, List.mem_cons_of_mem a hm, ?_⟩
          intro d hd
          rcases List.mem_cons.mp hd with rfl | hd
          · exact Bool.eq_false_iff.mpr hb
          · exact htop d hd

theorem mem_topCandidates (cands : List MappedField) (m : MappedField) :
    m ∈ topCandidates cands ↔
      m ∈ cands ∧ ∀ d ∈ cands, beats d m = false := by
  simp [topCandidates, List.mem_filter, List.all_eq_true, Bool.not_eq_true']

theorem topCandidates_ne_nil (cands : List MappedField) (h : cands ≠ []) :
    topCandidates cands ≠ [] := by
  obtain ⟨m, hm, htop⟩ := exists_top_candidate cands h
  exact List.ne_nil_of_mem ((mem_topCandidates cands m).mpr ⟨hm, htop⟩)

theorem mem_candidates (table : List MappedField) (pid cf cid : Nat)
    (asOf : Int) (m : MappedField) :
    m ∈ candidates table pid cf cid asOf ↔
      m ∈ table ∧ m.provider = pid ∧ m.canonical = cf ∧
        (m.company = none ∨ m.company = some cid) ∧ containsDate m asOf := by
  simp [candidates, List.mem_filter, decide_eq_true_eq, and_assoc]

/-- C1: resolution filters the mapping table to the rows matching
(provider, canonical field) whose company scope is null or equals the
queried company and whose date range contains the as-of date, then keeps
the rows not strictly outranked (`beats` encodes: company-scoped beats
provider-wide; among equal company-specificity a strictly narrower date
interval beats a wider or equal one; among equal widths the later
`start_date` wins).  Exactly one top-ranked candidate is returned; zero
candidates after the filters is `MappingNotFound`; two or more tied at
the top is `AmbiguousMapping` — never an arbitrary pick. -/
theorem resolver_specificity (table : List MappedField) (pid cf cid : Nat)
    (asOf : Int) :
    (∀ m, m ∈ candidates table pid cf cid asOf ↔
      m ∈ table ∧ m.provider = pid ∧ m.canonical = cf ∧
        (m.company = none ∨ m.company = some cid) ∧ containsDate m asOf) ∧
    (∀ m, m ∈ topCandidates (candidates table pid cf cid asOf) ↔
      m ∈ candidates table pid cf cid asOf ∧
        ∀ d ∈ candidates table pid cf cid asOf, beats d m = false) ∧
    (resolve table pid cf cid asOf = .mappingNotFound ↔
      candidates table pid cf cid asOf = []) ∧
    (∀ m, resolve table pid cf cid asOf = .found m ↔
      topCandidates (candidates table pid cf cid asOf) = [m]) ∧
    (resolve table pid cf cid asOf = .ambiguousMapping ↔
      2 ≤ (topCandidates (candidates table pid cf cid asOf)).length) := by
  refine ⟨mem_candidates table pid cf cid asOf,
    mem_topCandidates (candidates table pid cf cid asOf), ?_⟩
  have hne : candidates table pid cf cid asOf ≠ [] →
      topCandidates (candidates table pid cf cid asOf) ≠ [] :=
    topCandidates_ne_nil (candidates table pid cf cid asOf)
  rcases h : topCandidates (candidates table pid cf cid asOf) with _ | ⟨x, _ | ⟨y, r⟩⟩
  · refine ⟨⟨fun _ => ?_, fun _ => by simp [resolve, h]⟩,
      fun m => by simp [resolve, h], by simp [resolve, h]⟩
    by_contra hC
    exact hne hC h
  · have hC : candidates table pid cf cid asOf ≠ [] := by
      intro hC
      rw [hC] at h
      simp [topCandidates] at h
    refine ⟨⟨fun hcon => ?_, fun hC' => absurd hC' hC⟩,
      fun m => by simp [resolve, h], by simp [resolve, h]⟩
    simp [resolve, h] at hcon
  · have hC : candidates table pid cf cid asOf ≠ [] := by
      intro hC
      rw [hC] at h
      simp [topCandidates] at h
    refine ⟨⟨fun hcon => ?_, fun hC' => absurd hC' hC⟩,
      fun m => by simp [resolve, h], by simp [resolve, h]⟩
    simp [resolve, h] at hcon

/-- Witness for C1: with a provider-wide row and a company-specific row
both applicable, the company-specific row is the unique top candidate and
is returned. -/
theorem resolver_specificity_witness :
    resolve
      [{ provider := 1, canonical := 1001, raw_field_name := "rev_all",
         transform_expression := none, company := none,
         start_date := none, end_date := none },
       { provider := 1, canonical := 1001, raw_field_name := "rev_co",
         transform_expression := none, company := some 7,
         start_date := none, end_date := none }] 1 1001 7 5 =
      .found
        { provider := 1, canonical := 1001, raw_field_name := "rev_co",
          transform_expression := none, company := some 7,
          start_date := none, end_date := none } :=
  ((resolver_specificity _ 1 1001 7 5).2.2.2.1 _).mpr rfl

/-- C6: exporting a provider's full MappedField set through the backup
record format and importing it back into the same provider reproduces the
mapping table exactly, so every (provider, canonical field, company,
as-of date) query resolves to the same outcome before and after the round
trip. -/
theorem backup_round_trip (rows : List MappedField) (pid : Nat)
    (h : ∀ r ∈ rows, r.provider = pid) :
    ∀ (pid' cf cid : Nat) (asOf : Int),
      resolve (importMappings pid (exportMappings rows)) pid' cf cid asOf =
        resolve rows pid' cf cid asOf := by
  intro pid' cf cid asOf
  have hrt : importMappings pid (exportMappings rows) = rows := by
    unfold importMappings exportMappings
    rw [List.map_map]
    conv_rhs => rw [← List.map_id rows]
    refine List.map_congr_left ?_
    intro r hr
    have hp := h r hr
    cases r
    subst hp
    rfl
  rw [hrt]

/-- Witness for C6: the round trip applied to a concrete one-provider
table, at one query of the battery. -/
theorem backup_round_trip_witness :
    resolve
      (importMappings 1 (exportMappings
        [{ provider := 1, canonical := 1001, raw_field_name := "revenues",
           transform_expression := none, company := none,
           start_date := none, end_date := none }])) 1 1001 7 5 =
      resolve
        [{ provider := 1, canonical := 1001, raw_field_name := "revenues",
           transform_expression := none, company := none,
           start_date := none, end_date := none }] 1 1001 7 5 :=
  backup_round_trip _ 1 (by decide) 1 1001 7 5

/-! ### Scheduler/orchestrator: dependency-closure infrastructure -/

theorem specNames_subset_universe (cfg : Config) :
    ∀ p ∈ cfg, p.1 ∈ universeNames cfg ∧ specNamesFin p.2 ⊆ universeNames cfg := by
  induction cfg with
  | nil => intro p hp; cases hp
  | cons q l ih =>
      intro p hp
      have hu : universeNames (q :: l) =
          insert q.1 (universeNames l ∪ specNamesFin q.2) := rfl
      rcases List.mem_cons.mp hp with rfl | hp
      · refine ⟨by rw [hu]; exact Finset.mem_insert_self _ _, ?_⟩
        rw [hu]
        exact (Finset.subset_union_right).trans (Finset.subset_insert _ _)
      · obtain ⟨h1, h2⟩ := ih p hp
        refine ⟨?_, ?_⟩
        · rw [hu]
          exact Finset.mem_insert_of_mem (Finset.mem_union_left _ h1)
        · rw [hu]
          exact (h2.trans Finset.subset_union_left).trans
            (Finset.subset_insert _ _)

theorem depsFin_subset_universe (cfg : Config) (f : String) :
    depsFin cfg f ⊆ universeNames cfg := by
  unfold depsFin depsOf
  cases hfind : cfg.find? (fun p => p.1 = f) with
  | none => simp [specOf, hfind, specDeps]
  | some p =>
      have hp : p ∈ cfg := List.mem_of_find?_eq_some hfind
      have hsub := (specNames_subset_universe cfg p hp).2
      simp only [specOf, hfind]
      exact hsub

theorem stepSet_subset_universe (cfg : Config) {s : Finset String}
    (hs : s ⊆ universeNames cfg) : stepSet cfg s ⊆ universeNames cfg := by
  unfold stepSet
  refine Finset.union_subset hs (Finset.biUnion_subset.mpr ?_)
  exact fun g _ => depsFin_subset_universe cfg g

theorem iterate_subset_universe (cfg : Config) :
    ∀ (n : Nat) (s : Finset String), s ⊆ universeNames cfg →
      (stepSet cfg)^[n] s ⊆ universeNames cfg := by
  intro n
  induction n with
  | zero => intro s hs; simpa using hs
  | succ n ih =>
      intro s hs
      rw [Function.iterate_succ_apply]
      exact ih (stepSet cfg s) (stepSet_subset_universe cfg hs)

theorem subset_stepSet (cfg : Config) (s : Finset String) : s ⊆ stepSet cfg s :=
  Finset.subset_union_left

theorem subset_iterate (cfg : Config) :
    ∀ (n : Nat) (s : Finset String), s ⊆ (stepSet cfg)^[n] s := by
  intro n
  induction n with
  | zero => intro s; simp
  | succ n ih =>
      intro s
      rw [Function.iterate_succ_apply]
      exact (subset_stepSet cfg s).trans (ih (stepSet cfg s))

theorem iterate_growth_card (cfg : Config) (s : Finset String) :
    ∀ K : Nat, (∀ k < K, (stepSet cfg)^[k + 1] s ≠ (stepSet cfg)^[k] s) →
      K ≤ ((stepSet cfg)^[K] s).card := by
  intro K
  induction K with
  | zero => intro _; exact Nat.zero_le _
  | succ K ih =>
      intro h
      have hK := ih fun k hk => h k (Nat.lt_succ_of_lt hk)
      have hsub : (stepSet cfg)^[K] s ⊆ (stepSet cfg)^[K + 1] s := by
        rw [Function.iterate_succ_apply']
        exact subset_stepSet cfg _
      have hne := h K (Nat.lt_succ_self K)
      have hss : (stepSet cfg)^[K] s ⊂ (stepSet cfg)^[K + 1] s :=
        ⟨hsub, fun hsup => hne (Finset.Subset.antisymm hsup hsub)⟩
      have := Finset.card_lt_card hss
      omega

theorem exists_iterate_fix (cfg : Config) (s : Finset String)
    (hs : s ⊆ universeNames cfg) :
    ∃ k ≤ (universeNames cfg).card,
      (stepSet cfg)^[k + 1] s = (stepSet cfg)^[k] s := by
  by_contra hcon
  push_neg at hcon
  have hall : ∀ k < (universeNames cfg).card + 1,
      (stepSet cfg)^[k + 1] s ≠ (stepSet cfg)^[k] s :=
    fun k hk => hcon k (Nat.lt_succ_iff.mp hk)
  have h1 := iterate_growth_card cfg s ((universeNames cfg).card + 1) hall
  have h2 : ((stepSet cfg)^[(universeNames cfg).card + 1] s).card ≤
      (universeNames cfg).card :=
    Finset.card_le_card (iterate_subset_universe cfg _ s hs)
  omega

theorem iterate_stable_from (cfg : Config) (s : Finset String) (k : Nat)
    (hfix : (stepSet cfg)^[k + 1] s = (stepSet cfg)^[k] s) :
    ∀ j, k ≤ j → (stepSet cfg)^[j] s = (stepSet cfg)^[k] s := by
  intro j
  induction j with
  | zero => intro hj; rw [Nat.le_zero.mp hj]
  | succ j ih =>
      intro hj
      rcases Nat.eq_or_lt_of_le hj with h | h
      · rw [← h]
      · have hkj : k ≤ j := Nat.lt_succ_iff.mp h
        rw [Function.iterate_succ_apply', ih hkj]
        exact (Function.iterate_succ_apply' (stepSet cfg) k s).symm.trans hfix

theorem reachSet_closed (cfg : Config) (f : String) :
    stepSet cfg (reachSet cfg f) = reachSet cfg f := by
  obtain ⟨k, hk, hfix⟩ :=
    exists_iterate_fix cfg (depsFin cfg f) (depsFin_subset_universe cfg f)
  have hstab := iterate_stable_from cfg (depsFin cfg f) k hfix
  have hN : (stepSet cfg)^[(universeNames cfg).card + 1] (depsFin cfg f) =
      (stepSet cfg)^[k] (depsFin cfg f) :=
    hstab _ (Nat.le_succ_of_le hk)
  unfold reachSet
  rw [hN]
  exact (Function.iterate_succ_apply' (stepSet cfg) k (depsFin cfg f)).symm.trans
    hfix

theorem deps_subset_reachSet (cfg : Config) (f : String) :
    depsFin cfg f ⊆ reachSet cfg f :=
  subset_iterate cfg _ (depsFin cfg f)

theorem reachSet_deps_subset (cfg : Config) (f : String) {g : String}
    (hg : g ∈ reachSet cfg f) : depsFin cfg g ⊆ reachSet cfg f := by
  rw [← reachSet_closed cfg f]
  unfold stepSet
  exact (Finset.subset_biUnion_of_mem (depsFin cfg) hg).trans
    Finset.subset_union_right

theorem reaches_mem_reachSet {cfg : Config} {f x : String}
    (h : Reaches cfg f x) : x ∈ reachSet cfg f := by
  induction h with
  | single hb =>
      exact deps_subset_reachSet cfg _ (by simpa [depsFin] using hb)
  | extend _ hbc ih =>
      exact reachSet_deps_subset cfg _ ih (by simpa [depsFin] using hbc)

theorem mem_iterate_reaches (cfg : Config) (f : String) :
    ∀ (n : Nat) (s : Finset String), (∀ y ∈ s, Reaches cfg f y) →
      ∀ x ∈ (stepSet cfg)^[n] s, Reaches cfg f x := by
  intro n
  induction n with
  | zero => intro s hs x hx; exact hs x (by simpa using hx)
  | succ n ih =>
      intro s hs x hx
      rw [Function.iterate_succ_apply] at hx
      refine ih (stepSet cfg s) ?_ x hx
      intro y hy
      rcases Finset.mem_union.mp hy with hy | hy
      · exact hs y hy
      · obtain ⟨g, hg, hyg⟩ := Finset.mem_biUnion.mp hy
        exact .extend (hs g hg) (by simpa [depsFin] using hyg)

theorem reachSet_iff (cfg : Config) (f x : String) :
    x ∈ reachSet cfg f ↔ Reaches cfg f x := by
  constructor
  · intro hx
    refine mem_iterate_reaches cfg f _ (depsFin cfg f) ?_ x hx
    intro y hy
    exact .single (by simpa [depsFin] using hy)
  · exact reaches_mem_reachSet

theorem reaches_trans {cfg : Config} {f g x : String}
    (h1 : Reaches cfg f g) (h2 : Reaches cfg g x) : Reaches cfg f x := by
  induction h2 with
  | single hb => exact .extend h1 hb
  | extend _ hbc ih => exact .extend ih hbc

theorem tainted_iff (cfg : Config) (f : String) :
    Tainted cfg f ↔
      (Reaches cfg f f ∨ ∃ g, Reaches cfg f g ∧ Reaches cfg g g) := by
  unfold Tainted
  simp only [reachSet_iff]

theorem tainted_of_dep {cfg : Config} {f d : String} (hd : d ∈ depsOf cfg f)
    (h : Tainted cfg d) : Tainted cfg f := by
  rw [tainted_iff] at h ⊢
  rcases h with h | ⟨g, h1, h2⟩
  · exact Or.inr ⟨d, .single hd, h⟩
  · exact Or.inr ⟨g, reaches_trans (.single hd) h1, h2⟩

theorem untainted_dep {cfg : Config} {f d : String} (h : ¬Tainted cfg f)
    (hd : d ∈ depsOf cfg f) : ¬Tainted cfg d :=
  fun hT => h (tainted_of_dep hd hT)

theorem untainted_dep_not_self {cfg : Config} {f d : String}
    (h : ¬Tainted cfg f) (hd : d ∈ depsOf cfg f) : ¬Reaches cfg d d :=
  fun hdd => h ((tainted_iff cfg f).mpr (Or.inr ⟨d, .single hd, hdd⟩))

theorem reachSet_card_lt_of_dep {cfg : Config} {f d : String}
    (hd : d ∈ depsOf cfg f) (hf : ¬Tainted cfg f) :
    (reachSet cfg d).card < (reachSet cfg f).card := by
  refine Finset.card_lt_card ⟨?_, ?_⟩
  · intro x hx
    rw [reachSet_iff] at hx ⊢
    exact reaches_trans (.single hd) hx
  · intro hsup
    have hdd : d ∈ reachSet cfg d :=
      hsup ((reachSet_iff cfg f d).mpr (.single hd))
    exact untainted_dep_not_self hf hd ((reachSet_iff cfg d d).mp hdd)

theorem reachSet_subset_universe (cfg : Config) (f : String) :
    reachSet cfg f ⊆ universeNames cfg := by
  unfold reachSet
  exact iterate_subset_universe cfg _ _ (depsFin_subset_universe cfg f)

theorem find?_congr {α : Type} (l : List α) (p q : α → Bool)
    (h : ∀ x ∈ l, p x = q x) : l.find? p = l.find? q := by
  induction l with
  | nil => rfl
  | cons a l ih =>
      have ha := h a (List.mem_cons_self a l)
      rw [List.find?_cons, List.find?_cons, ← ha]
      cases hpa : p a with
      | true => rfl
      | false => exact ih fun x hx => h x (List.mem_cons_of_mem a hx)

theorem outcomeStep_congr (O : MathOracle)
    (r₁ r₂ : String → Except FieldErr ℚ) :
    ∀ sp : FieldSpec, (∀ d ∈ specDeps sp, r₁ d = r₂ d) →
      outcomeStep O r₁ sp = outcomeStep O r₂ sp := by
  intro sp h
  cases sp with
  | resErr b => rfl
  | raw v => cases v <;> rfl
  | computed e =>
      have h' : ∀ d ∈ fieldsOf e, r₁ d = r₂ d := h
      simp only [outcomeStep]
      rw [find?_congr _ _ _ (fun d hd => by rw [h' d hd])]
      cases hfind : (fieldsOf e).find? (fun d => isErrOutcome (r₂ d)) with
      | some d => rfl
      | none => rw [eval_congr O _ _ e (fun s hs => by rw [h' s hs])]

theorem outcomeF_fuel_eq (cfg : Config) (O : MathOracle) :
    ∀ (K : Nat) (f : String), (reachSet cfg f).card < K → ¬Tainted cfg f →
      ∀ (n m : Nat), (reachSet cfg f).card < n → (reachSet cfg f).card < m →
        outcomeF cfg O n f = outcomeF cfg O m f := by
  intro K
  induction K with
  | zero => intro f hf; exact absurd hf (Nat.not_lt_zero _)
  | succ K ih =>
      intro f hfK hT n m hn hm
      cases n with
      | zero => omega
      | succ n' =>
          cases m with
          | zero => omega
          | succ m' =>
              simp only [outcomeF]
              rw [if_neg hT, if_neg hT]
              refine outcomeStep_congr O _ _ (specOf cfg f) ?_
              intro d hd
              have hdf : d ∈ depsOf cfg f := hd
              have hcard := reachSet_card_lt_of_dep hdf hT
              exact ih d (by omega) (untainted_dep hT hdf) n' m'
                (by omega) (by omega)

theorem agreement_push {cfg cfg' : Config} {g h : String}
    (H : ∀ h', (h' = g ∨ Reaches cfg g h') → specOf cfg h' = specOf cfg' h')
    (hh : h = g ∨ Reaches cfg g h) :
    ∀ h', (h' = h ∨ Reaches cfg h h') → specOf cfg h' = specOf cfg' h' := by
  intro h' hh'
  apply H
  rcases hh' with rfl | hr
  · exact hh
  · rcases hh with rfl | hgh
    · exact Or.inr hr
    · exact Or.inr (reaches_trans hgh hr)

theorem reaches_congr (cfg cfg' : Config) (g : String)
    (H : ∀ h, (h = g ∨ Reaches cfg g h) → specOf cfg h = specOf cfg' h) :
    ∀ x, Reaches cfg g x ↔ Reaches cfg' g x := by
  have hdeps : ∀ h, (h = g ∨ Reaches cfg g h) →
      depsOf cfg h = depsOf cfg' h := by
    intro h hh
    unfold depsOf
    rw [H h hh]
  intro x
  constructor
  · intro hx
    induction hx with
    | single hb => exact .single (by rw [← hdeps _ (Or.inl rfl)]; exact hb)
    | extend hab hbc ih =>
        exact .extend ih (by rw [← hdeps _ (Or.inr hab)]; exact hbc)
  · intro hx
    induction hx with
    | single hb => exact .single (by rw [hdeps _ (Or.inl rfl)]; exact hb)
    | extend hab hbc ih =>
        exact .extend ih (by rw [hdeps _ (Or.inr ih)]; exact hbc)

theorem reachSet_congr (cfg cfg' : Config) (g : String)
    (H : ∀ h, (h = g ∨ Reaches cfg g h) → specOf cfg h = specOf cfg' h) :
    reachSet cfg g = reachSet cfg' g := by
  ext x
  rw [reachSet_iff, reachSet_iff]
  exact reaches_congr cfg cfg' g H x

theorem tainted_congr {cfg cfg' : Config} {g : String}
    (H : ∀ h, (h = g ∨ Reaches cfg g h) → specOf cfg h = specOf cfg' h)
    {h : String} (hh : h = g ∨ Reaches cfg g h) :
    Tainted cfg h ↔ Tainted cfg' h := by
  have Hh := agreement_push H hh
  have rch := reaches_congr cfg cfg' h Hh
  rw [tainted_iff, tainted_iff]
  constructor
  · rintro (h1 | ⟨k, h1, h2⟩)
    · exact Or.inl ((rch h).mp h1)
    · have Hk := agreement_push Hh (Or.inr h1)
      exact Or.inr ⟨k, (rch k).mp h1, (reaches_congr cfg cfg' k Hk k).mp h2⟩
  · rintro (h1 | ⟨k, h1', h2'⟩)
    · exact Or.inl ((rch h).mpr h1)
    · have h1 : Reaches cfg h k := (rch k).mpr h1'
      have Hk := agreement_push Hh (Or.inr h1)
      exact Or.inr ⟨k, h1, (reaches_congr cfg cfg' k Hk k).mpr h2'⟩

theorem outcomeF_congr (cfg cfg' : Config) (O : MathOracle) :
    ∀ (n : Nat) (g : String),
      (∀ h, (h = g ∨ Reaches cfg g h) → specOf cfg h = specOf cfg' h) →
      outcomeF cfg O n g = outcomeF cfg' O n g := by
  intro n
  induction n with
  | zero => intro g H; rfl
  | succ n ih =>
      intro g H
      have hspec := H g (Or.inl rfl)
      have ht := tainted_congr H (Or.inl rfl)
      simp only [outcomeF]
      by_cases hT : Tainted cfg g
      · rw [if_pos hT, if_pos (ht.mp hT)]
      · rw [if_neg hT, if_neg fun hx => hT (ht.mpr hx), ← hspec]
        refine outcomeStep_congr O _ _ (specOf cfg g) ?_
        intro d hd
        have hdf : d ∈ depsOf cfg g := hd
        exact ih d (agreement_push H (Or.inr (.single hdf)))

theorem outcomeOf_tainted (cfg : Config) (O : MathOracle) (f : String)
    (h : Tainted cfg f) : outcomeOf cfg O f = .error .cyclicDependency := by
  unfold outcomeOf fuelOf
  simp only [outcomeF]
  rw [if_pos h]

theorem outcomeOf_congr (cfg cfg' : Config) (O : MathOracle) (g : String)
    (H : ∀ h, (h = g ∨ Reaches cfg g h) → specOf cfg h = specOf cfg' h) :
    outcomeOf cfg O g = outcomeOf cfg' O g := by
  have ht := tainted_congr H (Or.inl rfl)
  by_cases hT : Tainted cfg g
  · rw [outcomeOf_tainted cfg O g hT, outcomeOf_tainted cfg' O g (ht.mp hT)]
  · have hT' : ¬Tainted cfg' g := fun hx => hT (ht.mpr hx)
    have hrs := reachSet_congr cfg cfg' g H
    have hc1 : (reachSet cfg g).card ≤ (universeNames cfg).card :=
      Finset.card_le_card (reachSet_subset_universe cfg g)
    have hc2 : (reachSet cfg' g).card ≤ (universeNames cfg').card :=
      Finset.card_le_card (reachSet_subset_universe cfg' g)
    have hcc : (reachSet cfg' g).card = (reachSet cfg g).card := by rw [hrs]
    have h1 : outcomeF cfg O (fuelOf cfg) g =
        outcomeF cfg O ((reachSet cfg g).card + 1) g :=
      outcomeF_fuel_eq cfg O ((reachSet cfg g).card + 1) g (by omega) hT _ _
        (by unfold fuelOf; omega) (by omega)
    have h2 : outcomeF cfg O ((reachSet cfg g).card + 1) g =
        outcomeF cfg' O ((reachSet cfg g).card + 1) g :=
      outcomeF_congr cfg cfg' O _ g H
    have h3 : outcomeF cfg' O ((reachSet cfg g).card + 1) g =
        outcomeF cfg' O (fuelOf cfg') g :=
      outcomeF_fuel_eq cfg' O ((reachSet cfg' g).card + 1) g (by omega) hT' _ _
        (by omega) (by unfold fuelOf; omega)
    exact h1.trans (h2.trans h3)

theorem mem_valuate_values (cfg : Config) (O : MathOracle)
    (targets : List String) (f : String) (x : Option ℚ) :
    (f, x) ∈ (valuate cfg O targets).values ↔
      f ∈ targets ∧ x = (outcomeOf cfg O f).toOption := by
  constructor
  · intro h
    obtain ⟨a, ha, heq⟩ := List.mem_map.mp h
    injection heq with h1 h2
    subst h1
    exact ⟨ha, h2.symm⟩
  · rintro ⟨hf, rfl⟩
    exact List.mem_map.mpr ⟨f, hf, rfl⟩

theorem mem_valuate_errors (cfg : Config) (O : MathOracle)
    (targets : List String) (f : String) (e : FieldErr) :
    (f, e) ∈ (valuate cfg O targets).errors ↔
      f ∈ targets ∧ outcomeOf cfg O f = .error e := by
  constructor
  · intro h
    obtain ⟨a, ha, hmatch⟩ := List.mem_filterMap.mp h
    cases ho : outcomeOf cfg O a with
    | ok v => rw [ho] at hmatch; cases hmatch
    | error e' =>
        rw [ho] at hmatch
        injection hmatch with hpair
        injection hpair with h1 h2
        subst h1
        subst h2
        exact ⟨ha, ho⟩
  · rintro ⟨hf, ho⟩
    exact List.mem_filterMap.mpr ⟨f, hf, by rw [ho]⟩

theorem find?_filter_comm {α : Type} (p q : α → Bool)
    (h : ∀ x, q x = true → p x = true) :
    ∀ l : List α, (l.filter p).find? q = l.find? q := by
  intro l
  induction l with
  | nil => rfl
  | cons a l ih =>
      rw [List.filter_cons]
      cases hpa : p a with
      | false =>
          have hqa : q a = false := by
            cases hqa : q a with
            | false => rfl
            | true => rw [h a hqa] at hpa; cases hpa
          rw [if_neg (by simp [hpa]), ih,
            List.find?_cons_of_neg l (by simp [hqa])]
      | true =>
          rw [if_pos (by simp [hpa])]
          cases hqa : q a with
          | false =>
              rw [List.find?_cons_of_neg _ (by simp [hqa]),
                List.find?_cons_of_neg l (by simp [hqa]), ih]
          | true =>
              rw [List.find?_cons_of_pos _ hqa,
                List.find?_cons_of_pos l hqa]

theorem find?_eraseTwo (A B h : String) (hA : h ≠ A) (hB : h ≠ B)
    (l : Config) :
    (l.filter fun p => ¬(p.1 = A ∨ p.1 = B)).find? (fun p => p.1 = h) =
      l.find? (fun p => p.1 = h) := by
  refine find?_filter_comm _ _ ?_ l
  intro x hx
  have hxh : x.1 = h := of_decide_eq_true hx
  apply decide_eq_true
  rw [hxh]
  rintro (h' | h')
  · exact hA h'
  · exact hB h'

theorem specOf_eraseTwo (cfg : Config) (A B h : String) (hA : h ≠ A)
    (hB : h ≠ B) : specOf (eraseTwo cfg A B) h = specOf cfg h := by
  unfold specOf eraseTwo
  rw [find?_eraseTwo A B h hA hB cfg]

/-- C2 (amended): in any configuration where field `A`'s expression
references `B` and `B`'s references `A`, a run whose targets include `A`
and `B` records `CyclicDependencyError` for both (and for every requested
field depending on either), performs no partial evaluation of any cyclic
field (a field on a cycle yields the cyclic error and no value), and every
requested field that does not depend on the cycle is computed exactly as
it would be with the two cyclic mappings removed — in particular it still
computes successfully whenever its own mappings and data allow. -/
theorem scheduler_cycle_isolation (cfg : Config) (O : MathOracle)
    (targets : List String) (A B : String)
    (hAB : B ∈ depsOf cfg A) (hBA : A ∈ depsOf cfg B)
    (hAt : A ∈ targets) (hBt : B ∈ targets) :
    ((A, FieldErr.cyclicDependency) ∈ (valuate cfg O targets).errors ∧
     (B, FieldErr.cyclicDependency) ∈ (valuate cfg O targets).errors) ∧
    (∀ g ∈ targets, (Reaches cfg g A ∨ Reaches cfg g B) →
      (g, FieldErr.cyclicDependency) ∈ (valuate cfg O targets).errors) ∧
    (∀ f, Reaches cfg f f →
      outcomeOf cfg O f = .error .cyclicDependency ∧
      (f ∈ targets →
        (f, (none : Option ℚ)) ∈ (valuate cfg O targets).values)) ∧
    (∀ g, g ≠ A → g ≠ B → ¬Reaches cfg g A → ¬Reaches cfg g B →
      outcomeOf cfg O g = outcomeOf (eraseTwo cfg A B) O g) := by
  have hAA : Reaches cfg A A := .extend (.single hAB) hBA
  have hBB : Reaches cfg B B := .extend (.single hBA) hAB
  have hTA : Tainted cfg A := (tainted_iff cfg A).mpr (Or.inl hAA)
  have hTB : Tainted cfg B := (tainted_iff cfg B).mpr (Or.inl hBB)
  refine ⟨⟨?_, ?_⟩, ?_, ?_, ?_⟩
  · exact (mem_valuate_errors cfg O targets A _).mpr
      ⟨hAt, outcomeOf_tainted cfg O A hTA⟩
  · exact (mem_valuate_errors cfg O targets B _).mpr
      ⟨hBt, outcomeOf_tainted cfg O B hTB⟩
  · intro g hg hreach
    have hTg : Tainted cfg g := by
      rcases hreach with hr | hr
      · exact (tainted_iff cfg g).mpr (Or.inr ⟨A, hr, hAA⟩)
      · exact (tainted_iff cfg g).mpr (Or.inr ⟨B, hr, hBB⟩)
    exact (mem_valuate_errors cfg O targets g _).mpr
      ⟨hg, outcomeOf_tainted cfg O g hTg⟩
  · intro f hff
    have hTf : Tainted cfg f := (tainted_iff cfg f).mpr (Or.inl hff)
    refine ⟨outcomeOf_tainted cfg O f hTf, fun hft => ?_⟩
    refine (mem_valuate_values cfg O targets f _).mpr ⟨hft, ?_⟩
    rw [outcomeOf_tainted cfg O f hTf]
    rfl
  · intro g hgA hgB hrA hrB
    refine outcomeOf_congr cfg (eraseTwo cfg A B) O g ?_
    intro h hh
    have hhA : h ≠ A := by
      rintro rfl
      rcases hh with rfl | hr
      · exact hgA rfl
      · exact hrA hr
    have hhB : h ≠ B := by
      rintro rfl
      rcases hh with rfl | hr
      · exact hgB rfl
      · exact hrB hr
    exact (specOf_eraseTwo cfg A B h hhA hhB).symm

/-- Counterexample for C2 as originally stated: in the configuration
`a ↔ b` (cyclic) with requested targets `a`, `b`, `c` where `c` has no
mapping at all, the field `c` does not depend on the cycle and yet does
not compute successfully — it fails with its own `MappingNotFound` — so
"still computes successfully every requested field that does not depend
on the cycle" is false in general. -/
theorem scheduler_cycle_counterexample :
    (valuate [("a", FieldSpec.computed (.field "b")),
              ("b", FieldSpec.computed (.field "a"))]
        defaultOracle ["a", "b", "c"]).values =
      [("a", none), ("b", none), ("c", none)] ∧
    (valuate [("a", FieldSpec.computed (.field "b")),
              ("b", FieldSpec.computed (.field "a"))]
        defaultOracle ["a", "b", "c"]).errors =
      [("a", .cyclicDependency), ("b", .cyclicDependency),
       ("c", .mappingNotFound)] ∧
    ¬Reaches [("a", FieldSpec.computed (.field "b")),
              ("b", FieldSpec.computed (.field "a"))] "c" "a" ∧
    ¬Reaches [("a", FieldSpec.computed (.field "b")),
              ("b", FieldSpec.computed (.field "a"))] "c" "b" := by
  refine ⟨by decide, by decide, ?_, ?_⟩
  · intro hr
    exact absurd ((reachSet_iff _ _ _).mpr hr) (by decide)
  · intro hr
    exact absurd ((reachSet_iff _ _ _).mpr hr) (by decide)

/-- Witness for C2: the amended theorem applied at the concrete two-field
cycle with an independent raw field. -/
theorem scheduler_cycle_isolation_witness :
    ("a", FieldErr.cyclicDependency) ∈
      (valuate [("a", FieldSpec.computed (.field "b")),
                ("b", FieldSpec.computed (.field "a")),
                ("c", FieldSpec.raw (some 3))]
        defaultOracle ["a", "b", "c"]).errors ∧
    ("b", FieldErr.cyclicDependency) ∈
      (valuate [("a", FieldSpec.computed (.field "b")),
                ("b", FieldSpec.computed (.field "a")),
                ("c", FieldSpec.raw (some 3))]
        defaultOracle ["a", "b", "c"]).errors :=
  (scheduler_cycle_isolation
    [("a", FieldSpec.computed (.field "b")),
     ("b", FieldSpec.computed (.field "a")),
     ("c", FieldSpec.raw (some 3))]
    defaultOracle ["a", "b", "c"] "a" "b"
    (by decide) (by decide) (by decide) (by decide)).1

/-- C4: in every run, each requested field gets exactly one recorded
outcome — a value entry, `none` together with that field's specific
per-field error on any failure (`MappingNotFound`, `AmbiguousMapping`,
`CyclicDependencyError`, an `EvaluationError` subkind, `MissingRawValue`,
or a propagated upstream-dependency failure) — and no failure aborts the
run or escapes `valuate` (which is a total function producing an entry for
every requested field); moreover a field's outcome depends only on its own
dependency cone, so a failure at any field it does not depend on cannot
change it: fields not depending on the failed one are still computed, and
computed identically. -/
theorem valuate_per_field_isolation :
    (∀ (cfg : Config) (O : MathOracle) (targets : List String)
       (f : String) (x : Option ℚ),
      (f, x) ∈ (valuate cfg O targets).values ↔
        f ∈ targets ∧ x = (outcomeOf cfg O f).toOption) ∧
    (∀ (cfg : Config) (O : MathOracle) (targets : List String)
       (f : String) (e : FieldErr),
      (f, e) ∈ (valuate cfg O targets).errors ↔
        f ∈ targets ∧ outcomeOf cfg O f = .error e) ∧
    (∀ (cfg : Config) (O : MathOracle) (targets : List String)
       (f : String) (e : FieldErr),
      f ∈ targets → outcomeOf cfg O f = .error e →
        (f, (none : Option ℚ)) ∈ (valuate cfg O targets).values ∧
        (f, e) ∈ (valuate cfg O targets).errors) ∧
    (∀ (cfg cfg' : Config) (O : MathOracle) (g : String),
      (∀ h, (h = g ∨ Reaches cfg g h) → specOf cfg h = specOf cfg' h) →
      outcomeOf cfg O g = outcomeOf cfg' O g) := by
  refine ⟨mem_valuate_values, mem_valuate_errors, ?_, outcomeOf_congr⟩
  intro cfg O targets f e hf ho
  exact ⟨(mem_valuate_values cfg O targets f _).mpr ⟨hf, by rw [ho]; rfl⟩,
    (mem_valuate_errors cfg O targets f e).mpr ⟨hf, ho⟩⟩

/-- Witness for C4: a field whose raw entry is absent is recorded with a
`MissingRawValue` error and an absent value, by the theorem applied at a
concrete run. -/
theorem valuate_per_field_isolation_witness :
    ("x", (none : Option ℚ)) ∈
      (valuate [("x", FieldSpec.raw none)] defaultOracle ["x"]).values ∧
    ("x", FieldErr.missingRawValue) ∈
      (valuate [("x", FieldSpec.raw none)] defaultOracle ["x"]).errors :=
  valuate_per_field_isolation.2.2.1 [("x", FieldSpec.raw none)]
    defaultOracle ["x"] "x" .missingRawValue (by decide) rfl

end EquityValuator
